import Mathlib

/-!
Verification of the frame cache and playback-position engine of the
DolphinBit video trimmer (`src/core/video_handler.py`), together with the
cache-settings application site in `src/ui/main_window.py`.

The Python `VideoHandler` owns a cv2 capture (`self.cap`), an
`OrderedDict` frame cache, a capacity (`cache_size`), and an enabled flag.
We embed it shallowly:

  * a decoded frame is identified by the video it came from and its index
    (`Frame`); `.copy()` calls are the identity under value semantics;
  * a video resource (`Video`) has an id, a frame count, and a
    deterministic per-index decode-success predicate `ok` (a failed
    `cap.read()` at an index models a decode failure there);
  * the capture (`Cap`) is the video plus the `CAP_PROP_POS_FRAMES`
    cursor; `cap.read()` serves the frame at the cursor and advances it,
    or fails (cursor unchanged) when the index is out of range or
    undecodable; `cap.set(CAP_PROP_POS_FRAMES, n)` stores `n`;
  * the `OrderedDict` is an association list, head = oldest entry;
    assignment to an existing key updates in place (no recency change),
    assignment to a fresh key appends at the most-recent end, and
    `popitem(last=False)` removes the head — raising `KeyError` on an
    empty dict, which we model by returning `none` (Python exceptions
    propagate, hence the `Option` results on every operation that can
    reach `_add_to_cache`).

`cache_size` is an `Int` because it is read unvalidated from settings
(`int(self.settings.value('cache_size', 150))` can be zero or negative).
-/

namespace DolphinBit

/-- A decoded frame: the id of the video it was decoded from and its
frame index.  `frame.copy()` is the identity on this value model. -/
structure Frame where
  vid : Nat
  idx : Nat
deriving DecidableEq, Repr

/-- A video resource: id, frame count, and which indices decode
successfully (`ok i = false` models a decode failure / corrupt frame). -/
structure Video where
  vid : Nat
  frameCount : Nat
  ok : Nat → Bool

/-- A cv2 capture: the opened video plus the `CAP_PROP_POS_FRAMES`
cursor. -/
structure Cap where
  video : Video
  pos : Nat

/-- `ret, frame = cap.read()`: serves the frame at the cursor and
advances the cursor by one; on failure (out of range or undecodable)
returns no frame and leaves the cursor unchanged. -/
def capRead (c : Cap) : Option Frame × Cap :=
  if c.pos < c.video.frameCount ∧ c.video.ok c.pos = true then
    (some { vid := c.video.vid, idx := c.pos }, { c with pos := c.pos + 1 })
  else
    (none, c)

/-- `OrderedDict` lookup (`d[k]` / `k in d`). -/
def odLookup (k : Nat) : List (Nat × Frame) → Option Frame
  | [] => none
  | (k', v) :: t => if k' = k then some v else odLookup k t

/-- `OrderedDict` assignment `d[k] = v`: update in place when the key is
present (recency NOT changed), append at the most-recent end when it is
fresh. -/
def odInsert (k : Nat) (v : Frame) : List (Nat × Frame) → List (Nat × Frame)
  | [] => [(k, v)]
  | (k', v') :: t => if k' = k then (k, v) :: t else (k', v') :: odInsert k v t

/-- `d.pop(k)`: remove the (first) entry with key `k`. -/
def odRemove (k : Nat) : List (Nat × Frame) → List (Nat × Frame)
  | [] => []
  | (k', v') :: t => if k' = k then t else (k', v') :: odRemove k t

/-- The keys of the ordered dict, oldest first. -/
def odKeys (l : List (Nat × Frame)) : List Nat :=
  l.map Prod.fst

/-- The `VideoHandler` state: capture (if a video is loaded), frame
cache, cache configuration, and the frame count recorded at load time. -/
structure Handler where
  cap : Option Cap
  frame_cache : List (Nat × Frame)
  cache_size : Int
  cache_enabled : Bool
  frame_count : Nat

namespace VideoHandler

/-- `VideoHandler.__init__(cache_size)`: no capture, empty cache,
caching enabled. -/
def init (cache_size : Int) : Handler :=
  { cap := none, frame_cache := [], cache_size := cache_size,
    cache_enabled := true, frame_count := 0 }

/-- `VideoHandler._get_from_cache`: `none` when disabled or missing;
on a hit, pop and re-append the entry (mark most-recently-used) and
return the frame. -/
def get_from_cache (k : Nat) (s : Handler) : Option Frame × Handler :=
  if s.cache_enabled = true then
    match odLookup k s.frame_cache with
    | some f =>
        (some f, { s with frame_cache := odInsert k f (odRemove k s.frame_cache) })
    | none => (none, s)
  else
    (none, s)

/-- `VideoHandler._add_to_cache`: no-op when disabled; when
`len(cache) >= cache_size`, `popitem(last=False)` first — which raises
(`none`) on an empty dict — then `cache[k] = f`. -/
def add_to_cache (k : Nat) (f : Frame) (s : Handler) : Option Handler :=
  if s.cache_enabled = true then
    if (s.frame_cache.length : Int) ≥ s.cache_size then
      match s.frame_cache with
      | [] => none
      | _ :: t => some { s with frame_cache := odInsert k f t }
    else
      some { s with frame_cache := odInsert k f s.frame_cache }
  else
    some s

/-- The body of the `for frame_num in range(...)` sweep of
`_prefetch_frames`: skip indices already cached, otherwise
`cap.set(POS_FRAMES, i); ret, frame = cap.read()` and cache the frame
when the read succeeds. -/
def prefetchLoop : List Nat → Cap → Handler → Option (Cap × Handler)
  | [], c, s => some (c, s)
  | i :: rest, c, s =>
    if (odLookup i s.frame_cache).isSome then
      prefetchLoop rest c s
    else
      match capRead { c with pos := i } with
      | (some f, c2) =>
          match add_to_cache i f s with
          | some s' => prefetchLoop rest c2 s'
          | none => none
      | (none, c2) => prefetchLoop rest c2 s

/-- `VideoHandler._prefetch_frames(start, end)`: returns immediately if
caching is disabled or no video is loaded; otherwise saves the cursor,
sweeps `range(start, min(end, frame_count))`, and restores the cursor. -/
def prefetch_frames (start_frame end_frame : Nat) (s : Handler) : Option Handler :=
  match s.cap with
  | none => some s
  | some c =>
    if s.cache_enabled = true then
      let current_pos := c.pos
      match prefetchLoop (List.range' start_frame (min end_frame s.frame_count - start_frame)) c s with
      | some (c2, s') => some { s' with cap := some { c2 with pos := current_pos } }
      | none => none
    else
      some s

/-- `VideoHandler.get_current_frame`: `none` when unloaded; on a cache
hit at the cursor, issue one discarded `cap.read()` to advance the
cursor and return the cached copy; on a miss, read, cache the result and
prefetch `[pos+1, min(pos+10, frame_count))` when that window is
nonempty. -/
def get_current_frame (s : Handler) : Option (Option Frame × Handler) :=
  match s.cap with
  | none => some (none, s)
  | some c =>
    match get_from_cache c.pos s with
    | (some f, s1) =>
        some (some f, { s1 with cap := some (capRead c).2 })
    | (none, s1) =>
      match capRead c with
      | (some frame, c2) =>
          match add_to_cache c.pos frame { s1 with cap := some c2 } with
          | some s2 =>
              if c.pos + 1 < min (c.pos + 10) s2.frame_count then
                match prefetch_frames (c.pos + 1) (min (c.pos + 10) s2.frame_count) s2 with
                | some s3 => some (some frame, s3)
                | none => none
              else
                some (some frame, s2)
          | none => none
      | (none, c2) => some (none, { s1 with cap := some c2 })

/-- `VideoHandler.get_frame_at_position(n)`: `none` when unloaded; on a
cache hit, set the cursor directly to `n + 1` and return the cached
copy; on a miss, set the cursor to `n`, delegate to
`get_current_frame`, then prefetch `[max(0, n-5), min(n+15, frame_count))`. -/
def get_frame_at_position (n : Nat) (s : Handler) : Option (Option Frame × Handler) :=
  match s.cap with
  | none => some (none, s)
  | some c =>
    match get_from_cache n s with
    | (some f, s1) =>
        some (some f, { s1 with cap := some { c with pos := n + 1 } })
    | (none, s1) =>
      match get_current_frame { s1 with cap := some { c with pos := n } } with
      | some (r, s3) =>
          match prefetch_frames (n - 5) (min (n + 15) s3.frame_count) s3 with
          | some s4 => some (r, s4)
          | none => none
      | none => none

/-- `VideoHandler.get_current_position`: the capture's reported cursor,
`0` when unloaded. -/
def get_current_position (s : Handler) : Nat :=
  match s.cap with
  | none => 0
  | some c => c.pos

/-- `VideoHandler.seek(n)`: no-op when unloaded; otherwise set the
cursor to `n` and prefetch `[max(0, n-5), min(n+20, frame_count))`. -/
def seek (n : Nat) (s : Handler) : Option Handler :=
  match s.cap with
  | none => some s
  | some c =>
    let s1 := { s with cap := some { c with pos := n } }
    prefetch_frames (n - 5) (min (n + 20) s1.frame_count) s1

/-- `VideoHandler.load_video` (successful open): release the previous
capture, clear the cache, open `v` with the cursor at 0, record its
properties, and warm the cache with `[0, min(30, frame_count))`.
fps/duration/width/height are not modelled (no claim concerns them). -/
def load_video (v : Video) (s : Handler) : Option Handler :=
  let s1 : Handler :=
    { s with cap := some { video := v, pos := 0 },
             frame_cache := [], frame_count := v.frameCount }
  prefetch_frames 0 (min 30 v.frameCount) s1

/-- `VideoHandler.clear_cache`. -/
def clear_cache (s : Handler) : Handler :=
  { s with frame_cache := [] }

/-- The cache-settings application site in `MainWindow._load_settings`:
`video_handler.cache_size = settings['size'];
video_handler.cache_enabled = settings['enabled']` — two bare field
assignments, nothing else. -/
def apply_cache_settings (size : Int) (enabled : Bool) (s : Handler) : Handler :=
  { s with cache_size := size, cache_enabled := enabled }

end VideoHandler

/-! ### Ordered-dict lemmas -/

theorem odLookup_mem {k : Nat} {f : Frame} : ∀ {l : List (Nat × Frame)},
    odLookup k l = some f → (k, f) ∈ l := by
  intro l h
  induction l with
  | nil => simp [odLookup] at h
  | cons p t ih =>
    obtain ⟨k', v'⟩ := p
    by_cases hk : k' = k
    · subst hk
      simp [odLookup] at h
      subst h
      exact List.mem_cons_self _ _
    · simp [odLookup, hk] at h
      exact List.mem_cons_of_mem _ (ih h)

theorem odLookup_eq_none_iff {k : Nat} : ∀ {l : List (Nat × Frame)},
    odLookup k l = none ↔ k ∉ odKeys l := by
  intro l
  induction l with
  | nil => simp [odLookup, odKeys]
  | cons p t ih =>
    obtain ⟨k', v'⟩ := p
    by_cases hk : k' = k
    · subst hk
      simp [odLookup, odKeys]
    · simp only [odLookup, if_neg hk, odKeys, List.map_cons, List.mem_cons]
      rw [show odKeys t = t.map Prod.fst from rfl] at ih
      rw [ih]
      constructor
      · rintro h (h1 | h1)
        · exact hk h1.symm
        · exact h h1
      · intro h h1
        exact h (Or.inr h1)

theorem odLookup_isSome_iff {k : Nat} {l : List (Nat × Frame)} :
    (odLookup k l).isSome = true ↔ k ∈ odKeys l := by
  rcases h : odLookup k l with _ | f
  · simp [odLookup_eq_none_iff.1 h]
  · simp only [Option.isSome_some, true_iff]
    exact List.mem_map_of_mem Prod.fst (odLookup_mem h)

theorem odInsert_of_lookup_none {k : Nat} {v : Frame} : ∀ {l : List (Nat × Frame)},
    odLookup k l = none → odInsert k v l = l ++ [(k, v)] := by
  intro l h
  induction l with
  | nil => rfl
  | cons p t ih =>
    obtain ⟨k', v'⟩ := p
    by_cases hk : k' = k
    · simp [odLookup, hk] at h
    · simp only [odLookup, if_neg hk] at h
      simp [odInsert, hk, ih h]

theorem mem_odInsert {p : Nat × Frame} {k : Nat} {v : Frame} :
    ∀ {l : List (Nat × Frame)}, p ∈ odInsert k v l → p = (k, v) ∨ p ∈ l := by
  intro l h
  induction l with
  | nil => simpa [odInsert] using h
  | cons q t ih =>
    obtain ⟨k', v'⟩ := q
    by_cases hk : k' = k
    · simp [odInsert, hk] at h
      rcases h with h | h
      · exact Or.inl (by simp [h])
      · exact Or.inr (List.mem_cons_of_mem _ h)
    · simp [odInsert, hk, List.mem_cons] at h
      rcases h with h | h
      · exact Or.inr (by simp [h])
      · rcases ih h with h' | h'
        · exact Or.inl h'
        · exact Or.inr (List.mem_cons_of_mem _ h')

theorem odRemove_sublist (k : Nat) : ∀ (l : List (Nat × Frame)),
    (odRemove k l).Sublist l := by
  intro l
  induction l with
  | nil => simp [odRemove]
  | cons q t ih =>
    obtain ⟨k', v'⟩ := q
    by_cases hk : k' = k
    · simp only [odRemove, if_pos hk]
      exact List.sublist_cons_self _ _
    · simp only [odRemove, if_neg hk]
      exact ih.cons₂ _

theorem mem_odRemove {p : Nat × Frame} {k : Nat} {l : List (Nat × Frame)}
    (h : p ∈ odRemove k l) : p ∈ l :=
  (odRemove_sublist k l).mem h

theorem mem_odKeys_odInsert {a k : Nat} {v : Frame} : ∀ {l : List (Nat × Frame)},
    a ∈ odKeys (odInsert k v l) ↔ a = k ∨ a ∈ odKeys l := by
  intro l
  induction l with
  | nil => simp [odInsert, odKeys]
  | cons q t ih =>
    obtain ⟨k', v'⟩ := q
    by_cases hk : k' = k
    · subst hk
      simp [odInsert, odKeys]
    · simp [odInsert, hk, odKeys] at ih ⊢
      tauto

theorem not_mem_odKeys_odRemove {k : Nat} : ∀ {l : List (Nat × Frame)},
    (odKeys l).Nodup → k ∉ odKeys (odRemove k l) := by
  intro l hnd
  induction l with
  | nil => simp [odRemove, odKeys]
  | cons q t ih =>
    obtain ⟨k', v'⟩ := q
    simp [odKeys] at hnd
    by_cases hk : k' = k
    · subst hk
      simp only [odRemove, if_pos rfl]
      intro hmem
      simp [odKeys] at hmem
      obtain ⟨f, hf⟩ := hmem
      exact hnd.1 f hf
    · simp only [odRemove, if_neg hk]
      intro hmem
      simp [odKeys] at hmem
      rcases hmem with h | h
      · exact hk h.symm
      · exact ih hnd.2 (by simpa [odKeys] using h)

/-! ### Frame-validity invariant on cache contents -/

/-- Every cache entry of `l` stores the frame of video `v` at its own
key, and that key is decodable and in range. -/
def CacheOK (v : Video) (l : List (Nat × Frame)) : Prop :=
  ∀ p ∈ l, p.2 = { vid := v.vid, idx := p.1 } ∧
    p.1 < v.frameCount ∧ v.ok p.1 = true

theorem CacheOK_nil (v : Video) : CacheOK v [] := by
  intro p hp
  simp at hp

theorem CacheOK_odInsert {v : Video} {l : List (Nat × Frame)} {k : Nat} {f : Frame}
    (h : CacheOK v l) (hf : f = { vid := v.vid, idx := k })
    (hlt : k < v.frameCount) (hok : v.ok k = true) :
    CacheOK v (odInsert k f l) := by
  intro p hp
  rcases mem_odInsert hp with h' | h'
  · subst h'
    exact ⟨hf, hlt, hok⟩
  · exact h p h'

theorem CacheOK_odRemove {v : Video} {l : List (Nat × Frame)} {k : Nat}
    (h : CacheOK v l) : CacheOK v (odRemove k l) :=
  fun p hp => h p (mem_odRemove hp)

theorem CacheOK_tail {v : Video} {p : Nat × Frame} {t : List (Nat × Frame)}
    (h : CacheOK v (p :: t)) : CacheOK v t :=
  fun q hq => h q (List.mem_cons_of_mem _ hq)

theorem CacheOK_lookup {v : Video} {l : List (Nat × Frame)} {k : Nat} {f : Frame}
    (h : CacheOK v l) (hl : odLookup k l = some f) :
    f = { vid := v.vid, idx := k } ∧ k < v.frameCount ∧ v.ok k = true :=
  h (k, f) (odLookup_mem hl)

/-! ### Characterizations of the cache primitives -/

/-- The configuration fields no cache/frame operation (other than
`load_video`/`apply_cache_settings`) modifies. -/
def SameCfg (s t : Handler) : Prop :=
  t.cache_size = s.cache_size ∧ t.cache_enabled = s.cache_enabled ∧
    t.frame_count = s.frame_count

theorem SameCfg.refl (s : Handler) : SameCfg s s :=
  ⟨Eq.refl _, Eq.refl _, Eq.refl _⟩

theorem SameCfg.trans {s t u : Handler} (h1 : SameCfg s t) (h2 : SameCfg t u) :
    SameCfg s u :=
  ⟨h2.1.trans h1.1, h2.2.1.trans h1.2.1, h2.2.2.trans h1.2.2⟩

namespace VideoHandler

theorem add_to_cache_disabled {k : Nat} {f : Frame} {s : Handler}
    (h : s.cache_enabled = false) : add_to_cache k f s = some s := by
  simp [add_to_cache, h]

theorem add_to_cache_lt {k : Nat} {f : Frame} {s : Handler}
    (he : s.cache_enabled = true) (hlt : (s.frame_cache.length : Int) < s.cache_size) :
    add_to_cache k f s = some { s with frame_cache := odInsert k f s.frame_cache } := by
  simp [add_to_cache, he, not_le.2 hlt]

theorem add_to_cache_ge {k : Nat} {f : Frame} {s : Handler} {p : Nat × Frame}
    {t : List (Nat × Frame)}
    (he : s.cache_enabled = true) (hge : (s.frame_cache.length : Int) ≥ s.cache_size)
    (hc : s.frame_cache = p :: t) :
    add_to_cache k f s = some { s with frame_cache := odInsert k f t } := by
  have hge2 : (((p :: t : List (Nat × Frame)).length : Int) ≥ s.cache_size) := by
    rw [← hc]; exact hge
  simp only [add_to_cache, he, if_true, hc]
  rw [if_pos hge2]

theorem add_to_cache_raises {k : Nat} {f : Frame} {s : Handler}
    (he : s.cache_enabled = true) (hc : s.frame_cache = [])
    (hcap : s.cache_size ≤ 0) :
    add_to_cache k f s = none := by
  have hge2 : ((([] : List (Nat × Frame)).length : Int) ≥ s.cache_size) := by
    simpa using hcap
  simp only [add_to_cache, he, if_true, hc]
  rw [if_pos hge2]

theorem add_to_cache_isSome {k : Nat} {f : Frame} {s : Handler}
    (hcap : 1 ≤ s.cache_size) : (add_to_cache k f s).isSome = true := by
  rcases he : s.cache_enabled with _ | _
  · simp [add_to_cache_disabled he]
  · by_cases hge : (s.frame_cache.length : Int) ≥ s.cache_size
    · rcases hc : s.frame_cache with _ | ⟨p, t⟩
      · rw [hc] at hge
        simp at hge
        omega
      · simp [add_to_cache_ge he hge hc]
    · simp [add_to_cache_lt he (not_le.1 hge)]

theorem add_to_cache_spec {k : Nat} {f : Frame} {s t : Handler}
    (h : add_to_cache k f s = some t) :
    SameCfg s t ∧ t.cap = s.cap ∧
      ∀ v, CacheOK v s.frame_cache →
        (f = { vid := v.vid, idx := k } → k < v.frameCount → v.ok k = true →
          CacheOK v t.frame_cache) := by
  rcases he : s.cache_enabled with _ | _
  · rw [add_to_cache_disabled he] at h
    cases h
    exact ⟨SameCfg.refl _, rfl, fun v hv _ _ _ => hv⟩
  · by_cases hge : (s.frame_cache.length : Int) ≥ s.cache_size
    · rcases hc : s.frame_cache with _ | ⟨p, tl⟩
      · have hcap : s.cache_size ≤ 0 := by
          rw [hc] at hge
          simpa using hge
        rw [add_to_cache_raises he hc hcap] at h
        cases h
      · rw [add_to_cache_ge he hge hc] at h
        cases h
        refine ⟨⟨rfl, rfl, rfl⟩, rfl, fun v hv hf hlt hok => ?_⟩
        show CacheOK v (odInsert k f tl)
        exact CacheOK_odInsert (CacheOK_tail hv) hf hlt hok
    · rw [add_to_cache_lt he (not_le.1 hge)] at h
      cases h
      exact ⟨⟨rfl, rfl, rfl⟩, rfl,
        fun v hv hf hlt hok => CacheOK_odInsert hv hf hlt hok⟩

theorem get_from_cache_disabled {k : Nat} {s : Handler}
    (h : s.cache_enabled = false) : get_from_cache k s = (none, s) := by
  simp [get_from_cache, h]

theorem get_from_cache_none {k : Nat} {s : Handler}
    (h : odLookup k s.frame_cache = none) : get_from_cache k s = (none, s) := by
  rcases he : s.cache_enabled with _ | _
  · simp [get_from_cache, he]
  · simp [get_from_cache, he, h]

theorem get_from_cache_hit {k : Nat} {f : Frame} {s : Handler}
    (he : s.cache_enabled = true) (h : odLookup k s.frame_cache = some f) :
    get_from_cache k s =
      (some f, { s with frame_cache := odInsert k f (odRemove k s.frame_cache) }) := by
  simp [get_from_cache, he, h]

theorem get_from_cache_miss {k : Nat} {s : Handler}
    (h : (get_from_cache k s).1 = none) : get_from_cache k s = (none, s) := by
  rcases he : s.cache_enabled with _ | _
  · exact get_from_cache_disabled he
  · rcases hl : odLookup k s.frame_cache with _ | f
    · exact get_from_cache_none hl
    · rw [get_from_cache_hit he hl] at h
      simp at h

end VideoHandler

theorem capRead_pos {c : Cap}
    (h : c.pos < c.video.frameCount ∧ c.video.ok c.pos = true) :
    capRead c = (some { vid := c.video.vid, idx := c.pos }, { c with pos := c.pos + 1 }) := by
  simp [capRead, h]

theorem capRead_neg {c : Cap}
    (h : ¬(c.pos < c.video.frameCount ∧ c.video.ok c.pos = true)) :
    capRead c = (none, c) := by
  simp only [capRead, if_neg h]

theorem capRead_at {c : Cap} {i : Nat}
    (hlt : i < c.video.frameCount) (hok : c.video.ok i = true) :
    capRead { c with pos := i } =
      (some { vid := c.video.vid, idx := i }, { c with pos := i + 1 }) := by
  simp [capRead, hlt, hok]

theorem capRead_at_neg {c : Cap} {i : Nat}
    (h : ¬(i < c.video.frameCount ∧ c.video.ok i = true)) :
    capRead { c with pos := i } = (none, { c with pos := i }) := by
  simp only [capRead]
  rw [if_neg h]

theorem capRead_some_inv {c c' : Cap} {f : Frame} (h : capRead c = (some f, c')) :
    f = { vid := c.video.vid, idx := c.pos } ∧ c' = { c with pos := c.pos + 1 } ∧
      c.pos < c.video.frameCount ∧ c.video.ok c.pos = true := by
  by_cases hr : c.pos < c.video.frameCount ∧ c.video.ok c.pos = true
  · rw [capRead_pos hr] at h
    obtain ⟨h1, h2⟩ := Prod.mk.injEq .. ▸ h
    exact ⟨(Option.some_inj.1 h1).symm, h2.symm, hr⟩
  · rw [capRead_neg hr] at h
    simp at h

theorem capRead_none_inv {c c' : Cap} (h : capRead c = (none, c')) :
    c' = c ∧ ¬(c.pos < c.video.frameCount ∧ c.video.ok c.pos = true) := by
  by_cases hr : c.pos < c.video.frameCount ∧ c.video.ok c.pos = true
  · rw [capRead_pos hr] at h
    simp at h
  · rw [capRead_neg hr] at h
    obtain ⟨h1, h2⟩ := Prod.mk.injEq .. ▸ h
    exact ⟨h2.symm, hr⟩

namespace VideoHandler

theorem prefetchLoop_spec : ∀ (idxs : List Nat) (c : Cap) (s : Handler)
    {c2 : Cap} {s' : Handler}, prefetchLoop idxs c s = some (c2, s') →
    c2.video = c.video ∧ s'.cap = s.cap ∧ SameCfg s s' ∧
      (CacheOK c.video s.frame_cache → CacheOK c.video s'.frame_cache) := by
  intro idxs
  induction idxs with
  | nil =>
    intro c s c2 s' h
    simp only [prefetchLoop, Option.some_inj] at h
    cases h
    exact ⟨rfl, rfl, SameCfg.refl _, fun hv => hv⟩
  | cons i rest ih =>
    intro c s c2 s' h
    simp only [prefetchLoop] at h
    split at h
    · exact ih c s h
    · split at h
      next f cr heq =>
        obtain ⟨hf, hcr, hlt, hok1⟩ := capRead_some_inv heq
        dsimp only at hf hcr hlt hok1
        subst hf
        subst hcr
        split at h
        next s1 ha =>
          obtain ⟨hvid, hcap, hcfg, hok⟩ := ih _ s1 h
          obtain ⟨hcfg', hcap', hok'⟩ := add_to_cache_spec ha
          refine ⟨hvid, hcap.trans hcap', hcfg'.trans hcfg, fun hv => ?_⟩
          exact hok (hok' c.video hv rfl hlt hok1)
        next ha => cases h
      next cr heq =>
        obtain ⟨hcr, -⟩ := capRead_none_inv heq
        subst hcr
        obtain ⟨h1, h2, h3, h4⟩ := ih { video := c.video, pos := i } s h
        exact ⟨h1, h2, h3, h4⟩

theorem prefetchLoop_isSome : ∀ (idxs : List Nat) (c : Cap) (s : Handler),
    1 ≤ s.cache_size → (prefetchLoop idxs c s).isSome = true := by
  intro idxs
  induction idxs with
  | nil =>
    intro c s _
    simp [prefetchLoop]
  | cons i rest ih =>
    intro c s hcap
    simp only [prefetchLoop]
    split
    · exact ih c s hcap
    · split
      next f cr heq =>
        split
        next s1 ha =>
          obtain ⟨hcfg, -, -⟩ := add_to_cache_spec ha
          exact ih _ s1 (by rw [hcfg.1]; exact hcap)
        next ha =>
          have := add_to_cache_isSome (k := i) (f := f) hcap
          rw [ha] at this
          simp at this
      next cr heq =>
        exact ih _ s hcap

theorem prefetch_frames_spec {a b : Nat} {s s' : Handler}
    (h : prefetch_frames a b s = some s') :
    s'.cap = s.cap ∧ SameCfg s s' ∧
      (∀ c, s.cap = some c →
        CacheOK c.video s.frame_cache → CacheOK c.video s'.frame_cache) := by
  rcases hc : s.cap with _ | c
  · simp only [prefetch_frames, hc, Option.some_inj] at h
    cases h
    exact ⟨hc, SameCfg.refl _, fun c _ hv => hv⟩
  · simp only [prefetch_frames, hc] at h
    rcases he : s.cache_enabled with _ | _
    · rw [if_neg (by simp [he])] at h
      cases h
      exact ⟨hc, SameCfg.refl _, fun c' _ hv => hv⟩
    · rw [if_pos he] at h
      rcases hloop : prefetchLoop (List.range' a (min b s.frame_count - a)) c s with _ | p
      · rw [hloop] at h
        cases h
      · obtain ⟨c2, t⟩ := p
        rw [hloop] at h
        simp only [Option.some_inj] at h
        obtain ⟨hvid, hcap, hcfg, hok⟩ := prefetchLoop_spec _ c s hloop
        have hcapeq : ({ c2 with pos := c.pos } : Cap) = c := by
          cases c with
          | mk video pos => simp [hvid]
        refine ⟨?_, ?_, ?_⟩
        · rw [← h]
          simp [hcapeq, hc]
        · refine SameCfg.trans hcfg ?_
          rw [← h]
          exact ⟨rfl, rfl, rfl⟩
        · intro c' hc' hv
          rw [Option.some_inj] at hc'
          cases hc'
          rw [← h]
          exact hok hv

theorem prefetch_frames_isSome {a b : Nat} {s : Handler}
    (hcap : 1 ≤ s.cache_size) : (prefetch_frames a b s).isSome = true := by
  rcases hc : s.cap with _ | c
  · simp [prefetch_frames, hc]
  · simp only [prefetch_frames, hc]
    rcases he : s.cache_enabled with _ | _
    · rw [if_neg (by simp)]
      simp
    · rw [if_pos rfl]
      have := prefetchLoop_isSome (List.range' a (min b s.frame_count - a)) c s hcap
      rcases hloop : prefetchLoop (List.range' a (min b s.frame_count - a)) c s with _ | p
      · rw [hloop] at this
        simp at this
      · obtain ⟨c2, t⟩ := p
        simp

theorem prefetchLoop_cons_hit {i : Nat} {rest : List Nat} {c : Cap} {s : Handler}
    (hl : (odLookup i s.frame_cache).isSome = true) :
    prefetchLoop (i :: rest) c s = prefetchLoop rest c s := by
  simp only [prefetchLoop]
  rw [if_pos hl]

theorem prefetchLoop_cons_add {i : Nat} {rest : List Nat} {c : Cap} {s s1 : Handler}
    (hl : odLookup i s.frame_cache = none)
    (hlt : i < c.video.frameCount) (hok : c.video.ok i = true)
    (ha : add_to_cache i { vid := c.video.vid, idx := i } s = some s1) :
    prefetchLoop (i :: rest) c s = prefetchLoop rest { c with pos := i + 1 } s1 := by
  have hl' : ¬ (odLookup i s.frame_cache).isSome = true := by simp [hl]
  simp only [prefetchLoop]
  rw [if_neg hl', capRead_at hlt hok]
  show (match add_to_cache i { vid := c.video.vid, idx := i } s with
        | some t => prefetchLoop rest { c with pos := i + 1 } t
        | none => none) = prefetchLoop rest { c with pos := i + 1 } s1
  rw [ha]

theorem prefetchLoop_cons_fail {i : Nat} {rest : List Nat} {c : Cap} {s : Handler}
    (hl : odLookup i s.frame_cache = none)
    (hr : ¬(i < c.video.frameCount ∧ c.video.ok i = true)) :
    prefetchLoop (i :: rest) c s = prefetchLoop rest { c with pos := i } s := by
  have hl' : ¬ (odLookup i s.frame_cache).isSome = true := by simp [hl]
  simp only [prefetchLoop]
  rw [if_neg hl', capRead_at_neg hr]

end VideoHandler

theorem mem_range'_iff {a n k : Nat} : k ∈ List.range' a n ↔ a ≤ k ∧ k < a + n := by
  induction n generalizing a with
  | zero => simp
  | succ m ih =>
    rw [List.range'_succ, List.mem_cons, ih]
    omega

namespace VideoHandler

theorem prefetchLoop_complete : ∀ (idxs : List Nat) (c : Cap) (s : Handler),
    s.cache_enabled = true →
    (∀ i ∈ idxs, i < c.video.frameCount ∧ c.video.ok i = true) →
    ((s.frame_cache.length : Int) + idxs.length ≤ s.cache_size) →
    ∃ c2 s', prefetchLoop idxs c s = some (c2, s') ∧
      (∀ k, k ∈ odKeys s'.frame_cache ↔ k ∈ odKeys s.frame_cache ∨ k ∈ idxs) ∧
      s'.frame_cache.length ≤ s.frame_cache.length + idxs.length := by
  intro idxs
  induction idxs with
  | nil =>
    intro c s _ _ _
    exact ⟨c, s, rfl, fun k => by simp, by simp⟩
  | cons i rest ih =>
    intro c s he hwin hcap
    have hwr : ∀ j ∈ rest, j < c.video.frameCount ∧ c.video.ok j = true :=
      fun j hj => hwin j (List.mem_cons_of_mem _ hj)
    rcases hx : odLookup i s.frame_cache with _ | f
    · -- fresh index: decode and append
      have hfresh : i ∉ odKeys s.frame_cache := odLookup_eq_none_iff.1 hx
      have hi := hwin i (List.mem_cons_self _ _)
      have hlt : (s.frame_cache.length : Int) < s.cache_size := by
        simp only [List.length_cons] at hcap
        push_cast at hcap
        omega
      have ha := add_to_cache_lt (k := i) (f := { vid := c.video.vid, idx := i })
        (s := s) he hlt
      rw [odInsert_of_lookup_none hx] at ha
      obtain ⟨c2, s', heq, hiff, hlen⟩ :=
        ih { c with pos := i + 1 }
          { s with frame_cache := s.frame_cache ++ [(i, { vid := c.video.vid, idx := i })] }
          he hwr
          (by
            simp only [List.length_append, List.length_cons, List.length_nil]
            simp only [List.length_cons] at hcap
            push_cast at hcap ⊢
            omega)
      refine ⟨c2, s', ?_, ?_, ?_⟩
      · rw [prefetchLoop_cons_add hx hi.1 hi.2 ha]
        exact heq
      · intro k
        rw [hiff k]
        simp only [odKeys, List.map_append, List.mem_append, List.map_cons,
          List.map_nil, List.mem_singleton, List.mem_cons, List.not_mem_nil,
          or_false]
        tauto
      · simp only [List.length_append, List.length_cons, List.length_nil] at hlen
        simp only [List.length_cons]
        omega
    · -- already cached: skipped
      have hl : (odLookup i s.frame_cache).isSome = true := by rw [hx]; rfl
      have hik : i ∈ odKeys s.frame_cache := odLookup_isSome_iff.1 hl
      obtain ⟨c2, s', heq, hiff, hlen⟩ := ih c s he hwr
        (by
          simp only [List.length_cons] at hcap
          push_cast at hcap ⊢
          omega)
      refine ⟨c2, s', ?_, ?_, ?_⟩
      · rw [prefetchLoop_cons_hit hl]
        exact heq
      · intro k
        rw [hiff k, List.mem_cons]
        constructor
        · rintro (h | h)
          · exact Or.inl h
          · exact Or.inr (Or.inr h)
        · rintro (h | h | h)
          · exact Or.inl h
          · exact Or.inl (h ▸ hik)
          · exact Or.inr h
      · simp only [List.length_cons]
        omega

theorem prefetch_frames_complete {a b : Nat} {s : Handler} {c : Cap}
    (hc : s.cap = some c) (he : s.cache_enabled = true)
    (hfc : s.frame_count = c.video.frameCount)
    (hallok : ∀ i, c.video.ok i = true)
    (hcap : (s.frame_cache.length : Int) + (min b s.frame_count - a : Nat) ≤ s.cache_size) :
    ∃ s', prefetch_frames a b s = some s' ∧
      (∀ k, k ∈ odKeys s'.frame_cache ↔
        k ∈ odKeys s.frame_cache ∨ (a ≤ k ∧ k < min b s.frame_count)) ∧
      s'.frame_cache.length ≤ s.frame_cache.length + (min b s.frame_count - a) ∧
      s'.cap = some c ∧ SameCfg s s' := by
  have hwin : ∀ i ∈ List.range' a (min b s.frame_count - a),
      i < c.video.frameCount ∧ c.video.ok i = true := by
    intro i hi
    rw [mem_range'_iff] at hi
    refine ⟨?_, hallok i⟩
    rw [← hfc]
    omega
  obtain ⟨c2, s'', hloop, hiff, hlen⟩ :=
    prefetchLoop_complete (List.range' a (min b s.frame_count - a)) c s he hwin
      (by rw [List.length_range']; exact hcap)
  obtain ⟨hvid, -, hcfg, -⟩ := prefetchLoop_spec _ c s hloop
  have hcapeq : ({ c2 with pos := c.pos } : Cap) = c := by
    cases c with
    | mk video pos => simp [hvid]
  refine ⟨{ s'' with cap := some { c2 with pos := c.pos } }, ?_, ?_, ?_, ?_, ?_⟩
  · simp only [prefetch_frames, hc]
    rw [if_pos he, hloop]
  · intro k
    show k ∈ odKeys s''.frame_cache ↔ _
    rw [hiff k, mem_range'_iff]
    constructor
    · rintro (h | h)
      · exact Or.inl h
      · exact Or.inr (by omega)
    · rintro (h | h)
      · exact Or.inl h
      · exact Or.inr (by omega)
  · rw [List.length_range'] at hlen
    exact hlen
  · show some { c2 with pos := c.pos } = some c
    rw [hcapeq]
  · exact SameCfg.trans hcfg ⟨rfl, rfl, rfl⟩

theorem get_from_cache_some_inv {k : Nat} {s s1 : Handler} {f : Frame}
    (h : get_from_cache k s = (some f, s1)) :
    s.cache_enabled = true ∧ odLookup k s.frame_cache = some f ∧
      s1 = { s with frame_cache := odInsert k f (odRemove k s.frame_cache) } := by
  rcases he : s.cache_enabled with _ | _
  · rw [get_from_cache_disabled he] at h
    simp at h
  · rcases hl : odLookup k s.frame_cache with _ | g
    · rw [get_from_cache_none hl] at h
      simp at h
    · rw [get_from_cache_hit he hl] at h
      obtain ⟨h1, h2⟩ := Prod.mk.injEq .. ▸ h
      cases Option.some_inj.1 h1
      refine ⟨rfl, rfl, ?_⟩
      rw [← he]
      exact h2.symm

theorem get_from_cache_none_inv {k : Nat} {s s1 : Handler}
    (h : get_from_cache k s = (none, s1)) : s1 = s := by
  rcases he : s.cache_enabled with _ | _
  · rw [get_from_cache_disabled he] at h
    exact (Prod.mk.injEq .. ▸ h).2.symm
  · rcases hl : odLookup k s.frame_cache with _ | g
    · rw [get_from_cache_none hl] at h
      exact (Prod.mk.injEq .. ▸ h).2.symm
    · rw [get_from_cache_hit he hl] at h
      simp at h

end VideoHandler

/-- The well-formedness invariant every state reachable from a
successful `load_video` satisfies: a capture is open, the recorded
`frame_count` matches it, and every cached entry is the genuine frame of
the loaded video at its own in-range, decodable index. -/
def Inv (s : Handler) : Prop :=
  ∃ c, s.cap = some c ∧ s.frame_count = c.video.frameCount ∧
    CacheOK c.video s.frame_cache

namespace VideoHandler

theorem get_current_frame_spec {s s' : Handler} {r : Option Frame}
    (hi : Inv s) (h : get_current_frame s = some (r, s')) :
    Inv s' ∧ SameCfg s s' ∧
      ∀ c, s.cap = some c → ∀ f, r = some f →
        f = { vid := c.video.vid, idx := c.pos } ∧
          s'.cap = some { c with pos := c.pos + 1 } := by
  obtain ⟨c, hc, hfc, hcok⟩ := hi
  simp only [get_current_frame, hc] at h
  split at h
  next f s1 heq =>
    obtain ⟨he, hl, hs1⟩ := get_from_cache_some_inv heq
    obtain ⟨hf, hlt, hok⟩ := CacheOK_lookup hcok hl
    have hread : capRead c = (some { vid := c.video.vid, idx := c.pos },
        { c with pos := c.pos + 1 }) :=
      capRead_pos ⟨hlt, hok⟩
    subst hs1
    rw [Option.some_inj, Prod.mk.injEq] at h
    obtain ⟨hr, hs'⟩ := h
    subst hr
    subst hs'
    refine ⟨?_, ⟨rfl, rfl, rfl⟩, ?_⟩
    · refine ⟨{ c with pos := c.pos + 1 }, ?_, hfc, ?_⟩
      · show some (capRead c).2 = _
        rw [hread]
      · exact CacheOK_odInsert (CacheOK_odRemove hcok) hf hlt hok
    · intro c' hc' f' hf'
      rw [hc, Option.some_inj] at hc'
      cases hc'
      cases Option.some_inj.1 hf'
      constructor
      · exact hf
      · show some (capRead c).2 = _
        rw [hread]
  next s1 heq =>
    cases get_from_cache_none_inv heq
    split at h
    next frame c2 heq2 =>
      obtain ⟨hframe, hc2, hlt, hok⟩ := capRead_some_inv heq2
      subst hframe
      subst hc2
      split at h
      next s2 ha =>
        obtain ⟨hcfg2, hcap2, hok2⟩ := add_to_cache_spec ha
        have hcok2 : CacheOK c.video s2.frame_cache :=
          hok2 c.video hcok rfl hlt hok
        have hcap2' : s2.cap = some { c with pos := c.pos + 1 } := hcap2
        split at h
        · split at h
          next s3 hp =>
            obtain ⟨hcap3, hcfg3, hok3⟩ := prefetch_frames_spec hp
            rw [Option.some_inj, Prod.mk.injEq] at h
            obtain ⟨hr, hs'⟩ := h
            subst hr
            subst hs'
            refine ⟨?_, ?_, ?_⟩
            · refine ⟨{ c with pos := c.pos + 1 }, ?_, ?_, ?_⟩
              · rw [hcap3, hcap2']
              · rw [hcfg3.2.2, hcfg2.2.2]
                exact hfc
              · exact hok3 _ hcap2' hcok2
            · exact SameCfg.trans ⟨hcfg2.1, hcfg2.2.1, hcfg2.2.2⟩ hcfg3
            · intro c' hc' f' hf'
              rw [hc, Option.some_inj] at hc'
              cases hc'
              cases Option.some_inj.1 hf'
              refine ⟨rfl, ?_⟩
              rw [hcap3, hcap2']
          next hp =>
            cases h
        · rw [Option.some_inj, Prod.mk.injEq] at h
          obtain ⟨hr, hs'⟩ := h
          subst hr
          subst hs'
          refine ⟨?_, ?_, ?_⟩
          · exact ⟨{ c with pos := c.pos + 1 }, hcap2', hcfg2.2.2.trans hfc, hcok2⟩
          · exact ⟨hcfg2.1, hcfg2.2.1, hcfg2.2.2⟩
          · intro c' hc' f' hf'
            rw [hc, Option.some_inj] at hc'
            cases hc'
            cases Option.some_inj.1 hf'
            exact ⟨rfl, hcap2'⟩
      next ha =>
        cases h
    next c2 heq2 =>
      obtain ⟨hc2, -⟩ := capRead_none_inv heq2
      subst hc2
      rw [Option.some_inj, Prod.mk.injEq] at h
      obtain ⟨hr, hs'⟩ := h
      subst hr
      subst hs'
      refine ⟨⟨c2, rfl, hfc, hcok⟩, ⟨rfl, rfl, rfl⟩, ?_⟩
      intro c' hc' f' hf'
      cases hf'

theorem get_frame_at_position_spec {n : Nat} {s s' : Handler} {r : Option Frame}
    (hi : Inv s) (h : get_frame_at_position n s = some (r, s')) :
    Inv s' ∧ SameCfg s s' ∧
      ∀ c, s.cap = some c → ∀ f, r = some f →
        f = { vid := c.video.vid, idx := n } ∧
          s'.cap = some { c with pos := n + 1 } := by
  obtain ⟨c, hc, hfc, hcok⟩ := hi
  simp only [get_frame_at_position, hc] at h
  split at h
  next f s1 heq =>
    obtain ⟨he, hl, hs1⟩ := get_from_cache_some_inv heq
    obtain ⟨hf, hlt, hok⟩ := CacheOK_lookup hcok hl
    subst hs1
    rw [Option.some_inj, Prod.mk.injEq] at h
    obtain ⟨hr, hs'⟩ := h
    subst hr
    subst hs'
    refine ⟨?_, ⟨rfl, rfl, rfl⟩, ?_⟩
    · exact ⟨{ c with pos := n + 1 }, rfl, hfc,
        CacheOK_odInsert (CacheOK_odRemove hcok) hf hlt hok⟩
    · intro c' hc' f' hf'
      rw [hc, Option.some_inj] at hc'
      cases hc'
      cases Option.some_inj.1 hf'
      exact ⟨hf, rfl⟩
  next s1 heq =>
    cases get_from_cache_none_inv heq
    split at h
    next r3 s3 heq2 =>
      have hi2 : Inv { s with cap := some { c with pos := n } } :=
        ⟨{ c with pos := n }, rfl, hfc, hcok⟩
      obtain ⟨hi3, hcfg3, hchar⟩ := get_current_frame_spec hi2 heq2
      split at h
      next s4 hp =>
        obtain ⟨hcap4, hcfg4, hok4⟩ := prefetch_frames_spec hp
        rw [Option.some_inj, Prod.mk.injEq] at h
        obtain ⟨hr, hs'⟩ := h
        subst hr
        subst hs'
        refine ⟨?_, ?_, ?_⟩
        · obtain ⟨c3, hc3, hfc3, hcok3⟩ := hi3
          exact ⟨c3, hcap4 ▸ hc3, hcfg4.2.2 ▸ hfc3, hok4 c3 hc3 hcok3⟩
        · exact SameCfg.trans (SameCfg.trans ⟨rfl, rfl, rfl⟩ hcfg3) hcfg4
        · intro c' hc' f' hf'
          rw [hc, Option.some_inj] at hc'
          cases hc'
          obtain ⟨hf, hcap3⟩ := hchar { c with pos := n } rfl f' hf'
          refine ⟨hf, ?_⟩
          rw [hcap4, hcap3]
      next hp =>
        cases h
    next heq2 =>
      cases h

theorem seek_spec {n : Nat} {s s' : Handler} {c : Cap} (hc : s.cap = some c)
    (h : seek n s = some s') :
    s'.cap = some { c with pos := n } ∧ SameCfg s s' ∧
      (CacheOK c.video s.frame_cache → CacheOK c.video s'.frame_cache) := by
  simp only [seek, hc] at h
  obtain ⟨hcap, hcfg, hok⟩ := prefetch_frames_spec h
  exact ⟨hcap, SameCfg.trans ⟨rfl, rfl, rfl⟩ hcfg,
    fun hv => hok { c with pos := n } rfl hv⟩

theorem seek_unloaded {n : Nat} {s : Handler} (hc : s.cap = none) :
    seek n s = some s := by
  simp [seek, hc]

theorem load_video_spec {v : Video} {s s' : Handler}
    (h : load_video v s = some s') :
    s'.cap = some { video := v, pos := 0 } ∧ s'.frame_count = v.frameCount ∧
      CacheOK v s'.frame_cache ∧ s'.cache_size = s.cache_size ∧
        s'.cache_enabled = s.cache_enabled := by
  simp only [load_video] at h
  obtain ⟨hcap, hcfg, hok⟩ := prefetch_frames_spec h
  exact ⟨hcap, hcfg.2.2, hok { video := v, pos := 0 } rfl (CacheOK_nil v),
    hcfg.1, hcfg.2.1⟩

/-- The states a `VideoHandler` can be in while a video is loaded: a
successful `load_video` from any prior state, followed by any sequence
of completed `get_current_frame`, `get_frame_at_position` and `seek`
calls. -/
inductive Reachable : Handler → Prop where
  | loaded {v : Video} {s0 s : Handler} :
      load_video v s0 = some s → Reachable s
  | stepGcf {s s' : Handler} {r : Option Frame} :
      Reachable s → get_current_frame s = some (r, s') → Reachable s'
  | stepGfap {n : Nat} {s s' : Handler} {r : Option Frame} :
      Reachable s → get_frame_at_position n s = some (r, s') → Reachable s'
  | stepSeek {n : Nat} {s s' : Handler} :
      Reachable s → seek n s = some s' → Reachable s'

theorem reachable_inv {s : Handler} (h : Reachable s) : Inv s := by
  induction h with
  | loaded hl =>
    obtain ⟨hcap, hfc, hok, -, -⟩ := load_video_spec hl
    exact ⟨_, hcap, hfc, hok⟩
  | stepGcf hr hstep ih =>
    exact (get_current_frame_spec ih hstep).1
  | stepGfap hr hstep ih =>
    exact (get_frame_at_position_spec ih hstep).1
  | stepSeek hr hstep ih =>
    obtain ⟨c, hc, hfc, hcok⟩ := ih
    obtain ⟨hcap, hcfg, hok⟩ := seek_spec hc hstep
    exact ⟨{ c with pos := _ }, hcap, hcfg.2.2.trans hfc, hok hcok⟩

end VideoHandler

/-! ### Sequences of black-box cache operations -/

/-- A cache operation of the Frame Cache contract: `get` is
`_get_from_cache`, `put` is `_add_to_cache`, `clear` is `clear_cache`. -/
inductive CacheOp where
  | get (k : Nat)
  | put (k : Nat) (f : Frame)
  | clear
deriving DecidableEq, Repr

namespace VideoHandler

def runCacheOp (op : CacheOp) (s : Handler) : Option Handler :=
  match op with
  | .get k => some (get_from_cache k s).2
  | .put k f => add_to_cache k f s
  | .clear => some (clear_cache s)

def runCacheOps : List CacheOp → Handler → Option Handler
  | [], s => some s
  | op :: rest, s =>
    match runCacheOp op s with
    | some s1 => runCacheOps rest s1
    | none => none

end VideoHandler

theorem odInsert_length_le (k : Nat) (v : Frame) : ∀ (l : List (Nat × Frame)),
    (odInsert k v l).length ≤ l.length + 1 := by
  intro l
  induction l with
  | nil => simp [odInsert]
  | cons p t ih =>
    obtain ⟨k', v'⟩ := p
    by_cases hk : k' = k
    · simp [odInsert, hk]
    · simp only [odInsert, if_neg hk, List.length_cons]
      omega

theorem odRemove_length_of_lookup {k : Nat} {f : Frame} :
    ∀ {l : List (Nat × Frame)}, odLookup k l = some f →
      (odRemove k l).length + 1 = l.length := by
  intro l h
  induction l with
  | nil => simp [odLookup] at h
  | cons p t ih =>
    obtain ⟨k', v'⟩ := p
    by_cases hk : k' = k
    · simp [odRemove, hk]
    · simp only [odLookup, if_neg hk] at h
      simp only [odRemove, if_neg hk, List.length_cons]
      rw [← ih h]

theorem odLookup_cons_none {k : Nat} {p : Nat × Frame} {t : List (Nat × Frame)}
    (h : odLookup k (p :: t) = none) : odLookup k t = none := by
  obtain ⟨k', v'⟩ := p
  by_cases hk : k' = k
  · simp [odLookup, hk] at h
  · simpa [odLookup, hk] using h

theorem odKeys_append_single (l : List (Nat × Frame)) (k : Nat) (f : Frame) :
    odKeys (l ++ [(k, f)]) = odKeys l ++ [k] := by
  simp [odKeys]

theorem nodup_odKeys_append {l : List (Nat × Frame)} {k : Nat} {f : Frame}
    (hnd : (odKeys l).Nodup) (hk : k ∉ odKeys l) :
    (odKeys (l ++ [(k, f)])).Nodup := by
  rw [odKeys_append_single]
  refine List.Nodup.append hnd (List.nodup_singleton k) ?_
  intro a ha hb
  rw [List.mem_singleton] at hb
  subst hb
  exact hk ha

theorem nodup_odKeys_odRemove {k : Nat} {l : List (Nat × Frame)}
    (hnd : (odKeys l).Nodup) : (odKeys (odRemove k l)).Nodup :=
  hnd.sublist ((odRemove_sublist k l).map Prod.fst)

/-! ### The spec's strict-LRU reference model -/

/-- The strict LRU cache the spec describes (contract of §4.1, taken at
its words): recency is updated on both get-hit and put (the touched
entry moves to the most-recent end), and a put at capacity with a new
index evicts the least-recently-touched entry — the head. -/
def lruStep (cap : Int) (op : CacheOp) (l : List (Nat × Frame)) :
    List (Nat × Frame) :=
  match op with
  | .get k =>
    match odLookup k l with
    | some f => odRemove k l ++ [(k, f)]
    | none => l
  | .put k f =>
    if (odLookup k l).isSome then odRemove k l ++ [(k, f)]
    else if (l.length : Int) ≥ cap then l.tail ++ [(k, f)]
    else l ++ [(k, f)]
  | .clear => []

def lruRun (cap : Int) : List CacheOp → List (Nat × Frame) → List (Nat × Frame)
  | [], l => l
  | op :: rest, l => lruRun cap rest (lruStep cap op l)

/-- Whether every `put` of the sequence inserts an index that is not
currently cached (the only kind of put `VideoHandler` ever issues),
checked along the LRU reference run. -/
def freshPuts (cap : Int) : List CacheOp → List (Nat × Frame) → Bool
  | [], _ => true
  | op :: rest, l =>
    (match op with
     | .put k _ => !(odLookup k l).isSome
     | _ => true) && freshPuts cap rest (lruStep cap op l)

namespace VideoHandler

theorem runCacheOp_le {op : CacheOp} {s t : Handler}
    (h : runCacheOp op s = some t) (hcap : 1 ≤ s.cache_size)
    (hlen : (s.frame_cache.length : Int) ≤ s.cache_size) :
    t.cache_size = s.cache_size ∧ t.cache_enabled = s.cache_enabled ∧
      (t.frame_cache.length : Int) ≤ t.cache_size := by
  match op with
  | .get k =>
    simp only [runCacheOp, Option.some_inj] at h
    rcases he : s.cache_enabled with _ | _
    · rw [get_from_cache_disabled he] at h
      cases h
      exact ⟨rfl, he, hlen⟩
    · rcases hl : odLookup k s.frame_cache with _ | f
      · rw [get_from_cache_none hl] at h
        cases h
        exact ⟨rfl, he, hlen⟩
      · rw [get_from_cache_hit he hl] at h
        cases h
        refine ⟨rfl, he, ?_⟩
        show ((odInsert k f (odRemove k s.frame_cache)).length : Int) ≤ s.cache_size
        have h1 := odInsert_length_le k f (odRemove k s.frame_cache)
        have h2 := odRemove_length_of_lookup hl
        omega
  | .put k f =>
    simp only [runCacheOp] at h
    obtain ⟨hcfg, -, -⟩ := add_to_cache_spec h
    refine ⟨hcfg.1, hcfg.2.1, ?_⟩
    rw [hcfg.1]
    rcases he : s.cache_enabled with _ | _
    · rw [add_to_cache_disabled he] at h
      cases h
      exact hlen
    · by_cases hge : (s.frame_cache.length : Int) ≥ s.cache_size
      · rcases hc : s.frame_cache with _ | ⟨p, tl⟩
        · rw [add_to_cache_raises he hc (by rw [hc] at hge; simpa using hge)] at h
          cases h
        · rw [add_to_cache_ge he hge hc] at h
          cases h
          show ((odInsert k f tl).length : Int) ≤ s.cache_size
          have h1 := odInsert_length_le k f tl
          rw [hc] at hlen
          simp only [List.length_cons] at hlen
          omega
      · rw [add_to_cache_lt he (not_le.1 hge)] at h
        cases h
        show ((odInsert k f s.frame_cache).length : Int) ≤ s.cache_size
        have h1 := odInsert_length_le k f s.frame_cache
        omega
  | .clear =>
    simp only [runCacheOp, Option.some_inj] at h
    cases h
    refine ⟨rfl, rfl, ?_⟩
    show (([] : List (Nat × Frame)).length : Int) ≤ s.cache_size
    simp only [List.length_nil, Nat.cast_zero]
    omega

theorem runCacheOps_le : ∀ (ops : List CacheOp) (s t : Handler),
    runCacheOps ops s = some t → 1 ≤ s.cache_size →
    (s.frame_cache.length : Int) ≤ s.cache_size →
    (t.frame_cache.length : Int) ≤ t.cache_size ∧ t.cache_size = s.cache_size := by
  intro ops
  induction ops with
  | nil =>
    intro s t h hcap hlen
    simp only [runCacheOps, Option.some_inj] at h
    cases h
    exact ⟨hlen, rfl⟩
  | cons op rest ih =>
    intro s t h hcap hlen
    simp only [runCacheOps] at h
    rcases hstep : runCacheOp op s with _ | s1
    · rw [hstep] at h
      cases h
    · rw [hstep] at h
      obtain ⟨hsz, -, hlen1⟩ := runCacheOp_le hstep hcap hlen
      obtain ⟨hfin, hsz2⟩ := ih s1 t h (by rw [hsz]; exact hcap) hlen1
      exact ⟨hfin, hsz2.trans hsz⟩

theorem code_lru_agree : ∀ (ops : List CacheOp) (s : Handler),
    1 ≤ s.cache_size → s.cache_enabled = true →
    (odKeys s.frame_cache).Nodup →
    freshPuts s.cache_size ops s.frame_cache = true →
    ∃ t, runCacheOps ops s = some t ∧
      t.frame_cache = lruRun s.cache_size ops s.frame_cache := by
  intro ops
  induction ops with
  | nil =>
    intro s _ _ _ _
    exact ⟨s, rfl, rfl⟩
  | cons op rest ih =>
    intro s hcap he hnd hfresh
    simp only [freshPuts, Bool.and_eq_true] at hfresh
    obtain ⟨hfr1, hfr2⟩ := hfresh
    have step : ∃ s1, runCacheOp op s = some s1 ∧
        s1.frame_cache = lruStep s.cache_size op s.frame_cache ∧
        s1.cache_size = s.cache_size ∧ s1.cache_enabled = true ∧
        (odKeys s1.frame_cache).Nodup := by
      match op with
      | .get k =>
        rcases hl : odLookup k s.frame_cache with _ | f
        · refine ⟨s, ?_, ?_, rfl, he, hnd⟩
          · simp [runCacheOp, get_from_cache_none hl]
          · simp [lruStep, hl]
        · have hfreshrem : k ∉ odKeys (odRemove k s.frame_cache) :=
            not_mem_odKeys_odRemove hnd
          refine ⟨{ s with frame_cache := odInsert k f (odRemove k s.frame_cache) },
            ?_, ?_, rfl, he, ?_⟩
          · simp [runCacheOp, get_from_cache_hit he hl]
          · show odInsert k f (odRemove k s.frame_cache) =
              lruStep s.cache_size (.get k) s.frame_cache
            rw [odInsert_of_lookup_none (odLookup_eq_none_iff.2 hfreshrem)]
            simp [lruStep, hl]
          · show (odKeys (odInsert k f (odRemove k s.frame_cache))).Nodup
            rw [odInsert_of_lookup_none (odLookup_eq_none_iff.2 hfreshrem)]
            exact nodup_odKeys_append (nodup_odKeys_odRemove hnd) hfreshrem
      | .put k f =>
        replace hfr1 : (!(odLookup k s.frame_cache).isSome) = true := hfr1
        have hl : odLookup k s.frame_cache = none := by
          rcases hx : odLookup k s.frame_cache with _ | g
          · rfl
          · rw [hx] at hfr1
            simp at hfr1
        have hnk : k ∉ odKeys s.frame_cache := odLookup_eq_none_iff.1 hl
        by_cases hge : (s.frame_cache.length : Int) ≥ s.cache_size
        · rcases hc : s.frame_cache with _ | ⟨p, tl⟩
          · rw [hc] at hge
            simp at hge
            omega
          · have hltl : odLookup k tl = none := odLookup_cons_none (hc ▸ hl)
            have hins : odInsert k f tl = tl ++ [(k, f)] :=
              odInsert_of_lookup_none hltl
            refine ⟨{ s with frame_cache := odInsert k f tl },
              add_to_cache_ge he hge hc, ?_, rfl, he, ?_⟩
            · show odInsert k f tl = lruStep s.cache_size (.put k f) (p :: tl)
              have hl2 : odLookup k (p :: tl) = none := hc ▸ hl
              have hge2 : (((p :: tl : List (Nat × Frame)).length : Int) ≥ s.cache_size) := by
                rw [← hc]
                exact hge
              rw [hins]
              simp only [lruStep, hl2, Option.isSome_none, Bool.false_eq_true,
                if_false]
              rw [if_pos hge2]
              rfl
            · show (odKeys (odInsert k f tl)).Nodup
              rw [hins]
              rw [hc] at hnd hnk
              refine nodup_odKeys_append ?_ ?_
              · exact (List.nodup_cons.1 (by simpa [odKeys] using hnd)).2
              · intro hmem
                exact hnk (by simp [odKeys] at hmem ⊢; exact Or.inr hmem)
        · have hins : odInsert k f s.frame_cache = s.frame_cache ++ [(k, f)] :=
            odInsert_of_lookup_none hl
          refine ⟨{ s with frame_cache := odInsert k f s.frame_cache },
            add_to_cache_lt he (not_le.1 hge), ?_, rfl, he, ?_⟩
          · show odInsert k f s.frame_cache =
              lruStep s.cache_size (.put k f) s.frame_cache
            rw [hins]
            simp only [lruStep, hl, Option.isSome_none, Bool.false_eq_true,
              if_false, if_neg hge]
          · show (odKeys (odInsert k f s.frame_cache)).Nodup
            rw [hins]
            exact nodup_odKeys_append hnd hnk
      | .clear =>
        exact ⟨clear_cache s, rfl, rfl, rfl, he, by simp [clear_cache, odKeys]⟩
    obtain ⟨s1, hstep, hlru, hsz, he1, hnd1⟩ := step
    obtain ⟨t, hrun, hfin⟩ := ih s1 (by rw [hsz]; exact hcap) he1 hnd1
      (by rw [hsz, hlru]; exact hfr2)
    refine ⟨t, ?_, ?_⟩
    · simp only [runCacheOps, hstep]
      exact hrun
    · rw [hfin, hsz, hlru]
      rfl

theorem get_current_frame_miss_eq {s s2 : Handler} {c : Cap}
    (hc : s.cap = some c)
    (hmiss : odLookup c.pos s.frame_cache = none)
    (hlt : c.pos < c.video.frameCount) (hok : c.video.ok c.pos = true)
    (ha : add_to_cache c.pos { vid := c.video.vid, idx := c.pos }
        { s with cap := some { c with pos := c.pos + 1 } } = some s2) :
    get_current_frame s =
      if c.pos + 1 < min (c.pos + 10) s2.frame_count then
        match prefetch_frames (c.pos + 1) (min (c.pos + 10) s2.frame_count) s2 with
        | some s3 => some (some { vid := c.video.vid, idx := c.pos }, s3)
        | none => none
      else some (some { vid := c.video.vid, idx := c.pos }, s2) := by
  simp only [get_current_frame, hc, get_from_cache_none hmiss]
  rw [capRead_pos ⟨hlt, hok⟩]
  show (match add_to_cache c.pos { vid := c.video.vid, idx := c.pos }
        { s with cap := some { c with pos := c.pos + 1 } } with
      | some t =>
          if c.pos + 1 < min (c.pos + 10) t.frame_count then
            match prefetch_frames (c.pos + 1) (min (c.pos + 10) t.frame_count) t with
            | some s3 => some (some ({ vid := c.video.vid, idx := c.pos } : Frame), s3)
            | none => none
          else some (some ({ vid := c.video.vid, idx := c.pos } : Frame), t)
      | none => none) = _
  rw [ha]

theorem gcf_complete {s : Handler} {c : Cap} (hc : s.cap = some c)
    (he : s.cache_enabled = true) (hfc : s.frame_count = c.video.frameCount)
    (hallok : ∀ i, c.video.ok i = true)
    (hmiss : odLookup c.pos s.frame_cache = none) (hlt : c.pos < s.frame_count)
    (hcap : (s.frame_cache.length : Int) + s.frame_count + 1 ≤ s.cache_size) :
    ∃ s', get_current_frame s = some (some { vid := c.video.vid, idx := c.pos }, s') ∧
      (∀ k, k ∈ odKeys s'.frame_cache ↔ k ∈ odKeys s.frame_cache ∨ k = c.pos ∨
        (c.pos + 1 ≤ k ∧ k < min (c.pos + 10) s.frame_count)) ∧
      s'.cap = some { c with pos := c.pos + 1 } ∧ SameCfg s s' ∧
      s'.frame_cache.length ≤ s.frame_cache.length + 10 := by
  have hlt' : c.pos < c.video.frameCount := hfc ▸ hlt
  have hltc : ((({ s with cap := some { c with pos := c.pos + 1 } } :
      Handler)).frame_cache.length : Int) <
      ({ s with cap := some { c with pos := c.pos + 1 } } : Handler).cache_size := by
    show (s.frame_cache.length : Int) < s.cache_size
    omega
  have ha := add_to_cache_lt (k := c.pos) (f := { vid := c.video.vid, idx := c.pos })
    (s := { s with cap := some { c with pos := c.pos + 1 } }) he hltc
  rw [show ({ s with cap := some { c with pos := c.pos + 1 } } :
      Handler).frame_cache = s.frame_cache from rfl,
    odInsert_of_lookup_none hmiss] at ha
  set s2 : Handler :=
    { s with cap := some { c with pos := c.pos + 1 },
             frame_cache := s.frame_cache ++ [(c.pos, { vid := c.video.vid, idx := c.pos })] }
    with hs2
  have heq := get_current_frame_miss_eq hc hmiss hlt' (hallok c.pos) ha
  have hmem2 : ∀ k, k ∈ odKeys s2.frame_cache ↔
      k ∈ odKeys s.frame_cache ∨ k = c.pos := by
    intro k
    show k ∈ odKeys (s.frame_cache ++ [(c.pos, { vid := c.video.vid, idx := c.pos })]) ↔ _
    rw [odKeys_append_single, List.mem_append, List.mem_singleton]
  by_cases hguard : c.pos + 1 < min (c.pos + 10) s2.frame_count
  · obtain ⟨s3, hpf, hiff, hlen, hcap3, hcfg3⟩ :=
      prefetch_frames_complete (a := c.pos + 1) (b := min (c.pos + 10) s2.frame_count)
        (s := s2) (c := { c with pos := c.pos + 1 }) rfl he
        (show s2.frame_count = c.video.frameCount from hfc)
        hallok
        (by
          show (((s.frame_cache ++ [(c.pos, ({ vid := c.video.vid, idx := c.pos } : Frame))]).length : Int))
            + ((min (min (c.pos + 10) s2.frame_count) s2.frame_count - (c.pos + 1) : Nat) : Int)
            ≤ s.cache_size
          have hw : min (min (c.pos + 10) s2.frame_count) s2.frame_count - (c.pos + 1)
              ≤ s.frame_count := by
            show min (min (c.pos + 10) s.frame_count) s.frame_count - (c.pos + 1)
              ≤ s.frame_count
            omega
          simp only [List.length_append, List.length_cons, List.length_nil]
          push_cast
          omega)
    rw [heq, if_pos hguard, hpf]
    refine ⟨s3, rfl, ?_, ?_, ?_, ?_⟩
    · intro k
      rw [hiff k]
      have hm2 := hmem2 k
      have hwin : min (min (c.pos + 10) s2.frame_count) s2.frame_count
          = min (c.pos + 10) s.frame_count := by
        show min (min (c.pos + 10) s.frame_count) s.frame_count
          = min (c.pos + 10) s.frame_count
        omega
      rw [hwin, hm2]
      tauto
    · exact hcap3
    · exact SameCfg.trans ⟨rfl, rfl, rfl⟩ hcfg3
    · have : s2.frame_cache.length = s.frame_cache.length + 1 := by
        show (s.frame_cache ++ [(c.pos, ({ vid := c.video.vid, idx := c.pos } : Frame))]).length = _
        simp
      omega
  · rw [heq, if_neg hguard]
    refine ⟨s2, rfl, ?_, rfl, ⟨rfl, rfl, rfl⟩, ?_⟩
    · intro k
      rw [hmem2 k]
      have hempty : ¬(c.pos + 1 ≤ k ∧ k < min (c.pos + 10) s.frame_count) := by
        have : ¬ (c.pos + 1 < min (c.pos + 10) s.frame_count) := hguard
        omega
      tauto
    · have : s2.frame_cache.length = s.frame_cache.length + 1 := by
        show (s.frame_cache ++ [(c.pos, ({ vid := c.video.vid, idx := c.pos } : Frame))]).length = _
        simp
      omega

theorem gfap_complete {s : Handler} {c : Cap} {n : Nat} (hc : s.cap = some c)
    (he : s.cache_enabled = true) (hfc : s.frame_count = c.video.frameCount)
    (hallok : ∀ i, c.video.ok i = true)
    (hmiss : odLookup n s.frame_cache = none) (hlt : n < s.frame_count)
    (hcap : (s.frame_cache.length : Int) + s.frame_count + 10 ≤ s.cache_size) :
    ∃ s', get_frame_at_position n s =
        some (some { vid := c.video.vid, idx := n }, s') ∧
      ∀ k, k ∈ odKeys s'.frame_cache ↔ k ∈ odKeys s.frame_cache ∨
        (n - 5 ≤ k ∧ k < min (n + 15) s.frame_count) := by
  obtain ⟨s3, hgcf, hiff3, hcap3, hcfg3, hlen3⟩ :=
    gcf_complete (s := { s with cap := some { c with pos := n } })
      (c := { c with pos := n }) rfl he hfc hallok hmiss hlt
      (by
        show (s.frame_cache.length : Int) + s.frame_count + 1 ≤ s.cache_size
        omega)
  have hfc3 : s3.frame_count = s.frame_count := hcfg3.2.2
  have he3 : s3.cache_enabled = true := by rw [hcfg3.2.1]; exact he
  have hsz3 : s3.cache_size = s.cache_size := hcfg3.1
  obtain ⟨s4, hpf, hiff4, hlen4, hcap4, hcfg4⟩ :=
    prefetch_frames_complete (a := n - 5) (b := min (n + 15) s3.frame_count)
      (s := s3) (c := { c with pos := n + 1 }) hcap3 he3
      (by rw [hfc3]; exact hfc) hallok
      (by
        rw [hsz3]
        have hw : min (min (n + 15) s3.frame_count) s3.frame_count - (n - 5)
            ≤ s.frame_count := by
          rw [hfc3]
          omega
        have hl3 : (s3.frame_cache.length : Int) ≤ s.frame_cache.length + 10 := by
          exact_mod_cast Nat.cast_le.2 hlen3
        omega)
  have heq : get_frame_at_position n s =
      some (some ({ vid := c.video.vid, idx := n } : Frame), s4) := by
    simp only [get_frame_at_position, hc, get_from_cache_none hmiss]
    rw [hgcf]
    show (match prefetch_frames (n - 5) (min (n + 15) s3.frame_count) s3 with
          | some t => some (some ({ vid := c.video.vid, idx := n } : Frame), t)
          | none => none) = _
    rw [hpf]
  refine ⟨s4, heq, ?_⟩
  intro k
  have h4 := hiff4 k
  have h3 := hiff3 k
  dsimp only at h3 h4
  rw [hfc3] at h4
  rw [h4, h3]
  constructor
  · rintro ((hA | hkn | hI) | hO)
    · exact Or.inl hA
    · subst hkn
      exact Or.inr (by omega)
    · exact Or.inr (by omega)
    · exact Or.inr (by omega)
  · rintro (hA | hO)
    · exact Or.inl (Or.inl hA)
    · exact Or.inr (by omega)

theorem seek_eq {n : Nat} {s : Handler} {c : Cap} (hc : s.cap = some c) :
    seek n s = prefetch_frames (n - 5) (min (n + 20) s.frame_count)
      { s with cap := some { c with pos := n } } := by
  simp only [seek, hc]

/-! ### Concrete states used by the witnesses -/

/-- An all-decodable 5-frame demo video. -/
def vDemo : Video := { vid := 3, frameCount := 5, ok := fun _ => true }

/-- The handler right after `load_video vDemo` on a fresh handler. -/
def sLoaded : Handler := (load_video vDemo (init 150)).getD (init 150)

/-- A 6-frame video whose frame 1 fails to decode. -/
def vFail : Video := { vid := 1, frameCount := 6, ok := fun i => decide (i ≠ 1) }

/-- A loaded handler with one pre-cached frame and a mid-video cursor. -/
def sFail : Handler :=
  { cap := some { video := vFail, pos := 4 },
    frame_cache := [(2, { vid := 1, idx := 2 })],
    cache_size := 10, cache_enabled := true, frame_count := 6 }

def vSix : Video := { vid := 7, frameCount := 5, ok := fun _ => true }

def sSix : Handler :=
  { cap := some { video := vSix, pos := 0 }, frame_cache := [],
    cache_size := 100, cache_enabled := true, frame_count := 5 }

def vHit : Video := { vid := 4, frameCount := 6, ok := fun _ => true }

def sHit : Handler :=
  { cap := some { video := vHit, pos := 2 },
    frame_cache := [(2, { vid := 4, idx := 2 }), (5, { vid := 4, idx := 5 })],
    cache_size := 10, cache_enabled := true, frame_count := 6 }

def vA : Video := { vid := 1, frameCount := 3, ok := fun _ => true }

def vB : Video := { vid := 2, frameCount := 10, ok := fun _ => true }

/-- A handler on video A with A's frame 5 cached. -/
def sWithA : Handler :=
  { cap := some { video := vA, pos := 0 },
    frame_cache := [(5, { vid := 1, idx := 5 })],
    cache_size := 50, cache_enabled := true, frame_count := 3 }

/-- The handler after loading video B over `sWithA`. -/
def sB : Handler := (load_video vB sWithA).getD sWithA

/-- An unloaded handler holding two cache entries. -/
def sC8 : Handler :=
  { cap := none,
    frame_cache := [(0, { vid := 0, idx := 0 }), (1, { vid := 0, idx := 1 })],
    cache_size := 150, cache_enabled := true, frame_count := 0 }

def opsC2 : List CacheOp :=
  [.put 0 { vid := 0, idx := 0 }, .put 1 { vid := 0, idx := 1 },
   .put 2 { vid := 0, idx := 2 }]

/-- put 1, put 2, overwrite-put 1, put 3, put 4. -/
def opsC3bad : List CacheOp :=
  [.put 1 { vid := 0, idx := 1 }, .put 2 { vid := 0, idx := 2 },
   .put 1 { vid := 0, idx := 1 }, .put 3 { vid := 0, idx := 3 },
   .put 4 { vid := 0, idx := 4 }]

/-- The spec's scenario: access order 1, 2, 3, 1, 4 (the repeated 1 is a
get-hit, the rest are fresh puts). -/
def opsC3 : List CacheOp :=
  [.put 1 { vid := 0, idx := 1 }, .put 2 { vid := 0, idx := 2 },
   .put 3 { vid := 0, idx := 3 }, .get 1, .put 4 { vid := 0, idx := 4 }]

/-! ### The claims -/

/-- C1: for every loaded video and every sequence of
`get_current_frame` / `get_frame_at_position` / `seek` calls, after each
call `get_current_position` equals the index following the frame the
call served (its index plus one), or the seek target for a bare `seek` —
whether the frame came from cache or from a fresh decode. -/
theorem C1_cursor_tracks_served_frame (s : Handler) (hr : Reachable s) :
    (∀ f s', get_current_frame s = some (some f, s') →
      get_current_position s' = f.idx + 1) ∧
    (∀ n f s', get_frame_at_position n s = some (some f, s') →
      f.idx = n ∧ get_current_position s' = n + 1) ∧
    (∀ n s', seek n s = some s' → get_current_position s' = n) := by
  have hi := reachable_inv hr
  obtain ⟨c, hc, -, -⟩ := reachable_inv hr
  refine ⟨?_, ?_, ?_⟩
  · intro f s' h
    obtain ⟨-, -, hchar⟩ := get_current_frame_spec hi h
    obtain ⟨hf, hcap⟩ := hchar c hc f rfl
    subst hf
    simp [get_current_position, hcap]
  · intro n f s' h
    obtain ⟨-, -, hchar⟩ := get_frame_at_position_spec hi h
    obtain ⟨hf, hcap⟩ := hchar c hc f rfl
    subst hf
    exact ⟨rfl, by simp [get_current_position, hcap]⟩
  · intro n s' h
    obtain ⟨hcap, -, -⟩ := seek_spec hc h
    simp [get_current_position, hcap]

theorem C1_witness :
    get_current_position ((get_current_frame sLoaded).getD (none, sLoaded)).2 = 1 ∧
    get_current_position ((seek 7 sLoaded).getD sLoaded) = 7 := by
  have hre : Reachable sLoaded :=
    @Reachable.loaded vDemo (init 150) sLoaded rfl
  exact ⟨(C1_cursor_tracks_served_frame sLoaded hre).1
      { vid := 3, idx := 0 } ((get_current_frame sLoaded).getD (none, sLoaded)).2 rfl,
    (C1_cursor_tracks_served_frame sLoaded hre).2.2
      7 ((seek 7 sLoaded).getD sLoaded) rfl⟩

/-- C2: for every capacity `C > 0` and every sequence of cache
operations (get, put via `_add_to_cache`, clear) from a fresh handler,
the cache holds at most `C` entries after every operation. -/
theorem C2_cache_bounded (C : Int) (hC : 1 ≤ C) (ops : List CacheOp)
    (t : Handler) (h : runCacheOps ops (init C) = some t) :
    (t.frame_cache.length : Int) ≤ C := by
  obtain ⟨hlen, hsz⟩ := runCacheOps_le ops (init C) t h hC
    (by simp only [init, List.length_nil, Nat.cast_zero]; omega)
  rw [hsz] at hlen
  exact hlen

theorem C2_witness :
    (((runCacheOps opsC2 (init 2)).getD (init 2)).frame_cache.length : Int) ≤ 2 :=
  C2_cache_bounded 2 (by decide) opsC2
    ((runCacheOps opsC2 (init 2)).getD (init 2)) rfl

/-- C3 counterexample: over the access sequence
put 1, put 2, put 1 (overwrite), put 3, put 4 with capacity 3, the code
caches keys [2, 3, 4] — the final put evicted index 1 — while the
strict-LRU model of the spec (recency updated on every get-hit and put)
would keep [1, 3, 4], evicting index 2, the least-recently-touched one.
A `d[k] = v` assignment to a key already present in an `OrderedDict`
does not move it to the most-recent end, so the overwrite-put of 1 does
not refresh its recency, yet eviction still removes the dict head. -/
theorem C3_counterexample :
    (runCacheOps opsC3bad (init 3)).map (fun t => odKeys t.frame_cache) =
        some [2, 3, 4] ∧
      odKeys (lruRun 3 opsC3bad []) = [1, 3, 4] := by
  decide

/-- C3 (amended): for access sequences in which every put inserts an
index not currently cached — the only kind of put `VideoHandler` ever
issues, since `_add_to_cache` is called only after a cache miss — the
cache evolves exactly as the strict LRU model: recency is updated on
get-hit and on (fresh) put, and a put at capacity evicts precisely the
least-recently-touched entry; in particular the access order
[1, 2, 3, 1, 4] at capacity 3 evicts index 2.  (A put that overwrites a
cached index leaves its recency unchanged, which is what breaks the
original claim.) -/
theorem C3_strict_lru_on_fresh_puts (cap : Int) (hcap : 1 ≤ cap)
    (ops : List CacheOp) (hfresh : freshPuts cap ops [] = true) :
    (runCacheOps ops (init cap)).map (fun t => t.frame_cache) =
      some (lruRun cap ops []) := by
  obtain ⟨t, hrun, hfc⟩ := code_lru_agree ops (init cap) hcap rfl
    (by simp [init, odKeys]) hfresh
  rw [hrun]
  show some t.frame_cache = some (lruRun cap ops [])
  exact congrArg some hfc

theorem C3_witness :
    freshPuts 3 opsC3 [] = true ∧
    (runCacheOps opsC3 (init 3)).map (fun t => t.frame_cache) =
      some (lruRun 3 opsC3 []) ∧
    odKeys (lruRun 3 opsC3 []) = [3, 1, 4] :=
  ⟨by decide, C3_strict_lru_on_fresh_puts 3 (by decide) opsC3 (by decide),
    by decide⟩

/-- C4: `load_video` while a video is loaded is a hard reset — it
releases the old capture and clears the whole cache before opening the
new video, so after a successful load of video B every cache entry, and
every frame `get_frame_at_position 5` can serve, belongs to B; A's
previously cached frame 5 is never returned. -/
theorem C4_load_is_hard_reset (s : Handler) (A B : Video)
    (hAB : A.vid ≠ B.vid) (s' : Handler) (hload : load_video B s = some s') :
    (∀ k f, odLookup k s'.frame_cache = some f → f.vid ≠ A.vid) ∧
    (∀ f s'', get_frame_at_position 5 s' = some (some f, s'') →
      f.vid ≠ A.vid) := by
  obtain ⟨hcap, hfc, hcok, -, -⟩ := load_video_spec hload
  constructor
  · intro k f hf
    obtain ⟨hf', -, -⟩ := CacheOK_lookup hcok hf
    rw [hf']
    exact fun hcon => hAB hcon.symm
  · intro f s'' h
    have hi : Inv s' := ⟨{ video := B, pos := 0 }, hcap, hfc, hcok⟩
    obtain ⟨-, -, hchar⟩ := get_frame_at_position_spec hi h
    obtain ⟨hf, -⟩ := hchar { video := B, pos := 0 } hcap f rfl
    rw [hf]
    exact fun hcon => hAB hcon.symm

theorem C4_witness :
    load_video vB sWithA = some sB ∧
    Frame.vid { vid := 2, idx := 5 } ≠ vA.vid :=
  ⟨rfl,
    (C4_load_is_hard_reset sWithA vA vB (by decide) sB rfl).2
      { vid := 2, idx := 5 }
      ((get_frame_at_position 5 sB).getD (none, sB)).2 rfl⟩

/-- C5: every `_prefetch_frames` invocation leaves the decoder exactly
where it found it — the capture (video and cursor) after the call equals
the capture before it, whatever the window, even when reads in the
window fail (they are skipped) and when indices are already cached. -/
theorem C5_prefetch_preserves_cursor (a b : Nat) (s s' : Handler)
    (h : prefetch_frames a b s = some s') : s'.cap = s.cap :=
  (prefetch_frames_spec h).1

theorem C5_witness :
    ((prefetch_frames 0 6 sFail).getD sFail).cap = sFail.cap :=
  C5_prefetch_preserves_cursor 0 6 sFail
    ((prefetch_frames 0 6 sFail).getD sFail) rfl

/-- C6: with caching enabled, everything decodable and capacity to
spare, each trigger prefetches exactly its window: a sequential
`get_current_frame` that decoded frame N fills `[N+1, min(N+10, fc))`
(plus N itself); a missing-index `get_frame_at_position N` fills
`[max(0, N-5), min(N+15, fc))`; a bare `seek N` fills
`[max(0, N-5), min(N+20, fc))` — the cache keys afterwards are the old
keys plus precisely that window. -/
theorem C6_prefetch_windows (s : Handler) (c : Cap) (hc : s.cap = some c)
    (he : s.cache_enabled = true) (hfc : s.frame_count = c.video.frameCount)
    (hallok : ∀ i, c.video.ok i = true)
    (hcap : (s.frame_cache.length : Int) + s.frame_count + 10 ≤ s.cache_size) :
    (odLookup c.pos s.frame_cache = none → c.pos < s.frame_count →
      ∃ s', get_current_frame s =
          some (some { vid := c.video.vid, idx := c.pos }, s') ∧
        ∀ k, k ∈ odKeys s'.frame_cache ↔ k ∈ odKeys s.frame_cache ∨
          k = c.pos ∨ (c.pos + 1 ≤ k ∧ k < min (c.pos + 10) s.frame_count)) ∧
    (∀ n, odLookup n s.frame_cache = none → n < s.frame_count →
      ∃ s', get_frame_at_position n s =
          some (some { vid := c.video.vid, idx := n }, s') ∧
        ∀ k, k ∈ odKeys s'.frame_cache ↔ k ∈ odKeys s.frame_cache ∨
          (n - 5 ≤ k ∧ k < min (n + 15) s.frame_count)) ∧
    (∀ n, ∃ s', seek n s = some s' ∧
      ∀ k, k ∈ odKeys s'.frame_cache ↔ k ∈ odKeys s.frame_cache ∨
        (n - 5 ≤ k ∧ k < min (n + 20) s.frame_count)) := by
  refine ⟨?_, ?_, ?_⟩
  · intro hmiss hlt
    obtain ⟨s', heq, hiff, -, -, -⟩ := gcf_complete hc he hfc hallok hmiss hlt
      (by omega)
    exact ⟨s', heq, hiff⟩
  · intro n hmiss hlt
    exact gfap_complete hc he hfc hallok hmiss hlt hcap
  · intro n
    obtain ⟨s', hpf, hiff, -, -, -⟩ :=
      prefetch_frames_complete (a := n - 5) (b := min (n + 20) s.frame_count)
        (s := { s with cap := some { c with pos := n } })
        (c := { c with pos := n }) rfl he hfc hallok
        (by
          show (s.frame_cache.length : Int) +
            ((min (min (n + 20) s.frame_count) s.frame_count - (n - 5) : Nat) : Int)
            ≤ s.cache_size
          have hw : min (min (n + 20) s.frame_count) s.frame_count - (n - 5)
              ≤ s.frame_count := by omega
          omega)
    refine ⟨s', ?_, ?_⟩
    · rw [seek_eq hc]
      exact hpf
    · intro k
      have h := hiff k
      dsimp only at h
      rw [h]
      constructor
      · rintro (hA | hO)
        · exact Or.inl hA
        · exact Or.inr (by omega)
      · rintro (hA | hO)
        · exact Or.inl hA
        · exact Or.inr (by omega)

theorem C6_witness :
    2 ∈ odKeys ((seek 3 sSix).getD sSix).frame_cache ∧
    0 ∈ odKeys ((seek 3 sSix).getD sSix).frame_cache := by
  obtain ⟨s', hpf, hiff⟩ :=
    (C6_prefetch_windows sSix { video := vSix, pos := 0 } rfl rfl rfl
      (fun i => rfl) (by decide)).2.2 3
  rw [hpf]
  show 2 ∈ odKeys s'.frame_cache ∧ 0 ∈ odKeys s'.frame_cache
  exact ⟨(hiff 2).2 (Or.inr (by decide)), (hiff 0).2 (Or.inr (by decide))⟩

/-- C7: on a cache hit the coordinator still brings the decoder cursor
to served-index + 1: `get_current_frame` with the cursor's index cached
returns the cached frame, issues one sequential read whose output is
discarded (the cursor advances by one, the cache only has its recency
refreshed), and `get_frame_at_position n` with `n` cached returns the
cached frame and writes the cursor directly to `n + 1` — no decode, no
range check needed for the latter. -/
theorem C7_hit_advances_cursor (s : Handler) (c : Cap) (n : Nat) (f : Frame)
    (hc : s.cap = some c) (he : s.cache_enabled = true) :
    (odLookup c.pos s.frame_cache = some f → c.pos < c.video.frameCount →
      c.video.ok c.pos = true →
      get_current_frame s = some (some f,
        { s with cap := some { c with pos := c.pos + 1 },
                 frame_cache := odInsert c.pos f (odRemove c.pos s.frame_cache) })) ∧
    (odLookup n s.frame_cache = some f →
      get_frame_at_position n s = some (some f,
        { s with cap := some { c with pos := n + 1 },
                 frame_cache := odInsert n f (odRemove n s.frame_cache) })) := by
  constructor
  · intro hl hlt hok
    simp only [get_current_frame, hc, get_from_cache_hit he hl]
    rw [capRead_pos ⟨hlt, hok⟩]
  · intro hl
    simp only [get_frame_at_position, hc, get_from_cache_hit he hl]

theorem C7_witness :
    get_current_frame sHit = some (some { vid := 4, idx := 2 },
      { sHit with
          cap := some ({ video := vHit, pos := 3 }),
          frame_cache :=
            odInsert 2 { vid := 4, idx := 2 } (odRemove 2 sHit.frame_cache) }) ∧
    get_frame_at_position 5 sHit = some (some { vid := 4, idx := 5 },
      { sHit with
          cap := some ({ video := vHit, pos := 6 }),
          frame_cache :=
            odInsert 5 { vid := 4, idx := 5 } (odRemove 5 sHit.frame_cache) }) :=
  ⟨(C7_hit_advances_cursor sHit { video := vHit, pos := 2 } 5
      { vid := 4, idx := 2 } rfl rfl).1 rfl (by decide) rfl,
    (C7_hit_advances_cursor sHit { video := vHit, pos := 2 } 5
      { vid := 4, idx := 5 } rfl rfl).2 rfl⟩

/-- C8 counterexample: applying a smaller capacity does not evict.
`sC8` holds 2 entries; after the settings application sets capacity 1,
the cache still holds 2 entries, not 1. -/
theorem C8_counterexample :
    (1 : Int) < (sC8.frame_cache.length : Int) ∧
    (apply_cache_settings 1 true sC8).frame_cache.length ≠ 1 := by
  decide

/-- C8 (amended): applying cache settings is two bare field assignments
with no eviction: the cache contents are untouched, and a subsequent
insert of a new index while size ≥ capacity pops exactly one entry
before appending one, leaving the size unchanged — so a cache with more
than `n` entries keeps its old size instead of shrinking to `n`. -/
theorem C8_resize_never_evicts (s : Handler) (n : Int) (e : Bool) :
    (apply_cache_settings n e s).frame_cache = s.frame_cache ∧
    (apply_cache_settings n e s).cache_size = n ∧
    (∀ k f, odLookup k s.frame_cache = none → s.frame_cache ≠ [] →
      n ≤ (s.frame_cache.length : Int) →
      (add_to_cache k f (apply_cache_settings n true s)).map
          (fun t => t.frame_cache.length) = some s.frame_cache.length) := by
  refine ⟨rfl, rfl, ?_⟩
  intro k f hl hne hn
  rcases hcache : s.frame_cache with _ | ⟨p, tl⟩
  · exact absurd hcache hne
  · have hge : (((apply_cache_settings n true s).frame_cache.length : Int) ≥
        (apply_cache_settings n true s).cache_size) := by
      show ((s.frame_cache.length : Int)) ≥ n
      exact hn
    have ha := add_to_cache_ge (k := k) (f := f)
      (s := apply_cache_settings n true s) rfl hge hcache
    rw [ha]
    have hltl : odLookup k tl = none := odLookup_cons_none (hcache ▸ hl)
    show some (odInsert k f tl).length = some (p :: tl).length
    rw [odInsert_of_lookup_none hltl]
    simp

theorem C8_witness :
    (apply_cache_settings 1 true sC8).frame_cache = sC8.frame_cache ∧
    (add_to_cache 9 { vid := 0, idx := 9 } (apply_cache_settings 1 true sC8)).map
        (fun t => t.frame_cache.length) = some sC8.frame_cache.length := by
  obtain ⟨h1, -, h3⟩ := C8_resize_never_evicts sC8 1 true
  exact ⟨h1, h3 9 { vid := 0, idx := 9 } (by decide) (by decide) (by decide)⟩

/-- C9 counterexample: the cache can raise even in the Unloaded state —
with capacity 0 (reachable from unvalidated settings) and an empty
cache, `_add_to_cache` takes the eviction branch and `popitem` raises
`KeyError` on the empty dict. -/
theorem C9_counterexample :
    (init 0).cap = none ∧
    add_to_cache 0 { vid := 0, idx := 0 } (init 0) = none :=
  ⟨rfl, rfl⟩

/-- C9 (amended): in the Unloaded state every frame-access operation
fails softly and raises nothing — `get_current_frame` and
`get_frame_at_position` return no frame and leave the state unchanged,
`seek` and `_prefetch_frames` are no-ops; and the cache and prefetcher
never raise provided the configured capacity is at least 1 (with
capacity ≤ 0 an insert into an empty cache raises, see C10). -/
theorem C9_unloaded_soft_fail (s : Handler) (n a b k : Nat) (f : Frame) :
    (s.cap = none →
      get_current_frame s = some (none, s) ∧
      get_frame_at_position n s = some (none, s) ∧
      seek n s = some s ∧
      prefetch_frames a b s = some s) ∧
    (1 ≤ s.cache_size →
      add_to_cache k f s ≠ none ∧ prefetch_frames a b s ≠ none) := by
  constructor
  · intro hc
    refine ⟨?_, ?_, ?_, ?_⟩
    · simp [get_current_frame, hc]
    · simp [get_frame_at_position, hc]
    · simp [seek, hc]
    · simp [prefetch_frames, hc]
  · intro hcap
    constructor
    · intro hcon
      have h := add_to_cache_isSome (k := k) (f := f) hcap
      rw [hcon] at h
      simp at h
    · intro hcon
      have h := prefetch_frames_isSome (a := a) (b := b) hcap
      rw [hcon] at h
      simp at h

theorem C9_witness :
    get_current_frame (init 150) = some (none, init 150) ∧
    seek 3 (init 150) = some (init 150) ∧
    add_to_cache 0 { vid := 0, idx := 0 } (init 150) ≠ none := by
  obtain ⟨h1, h2⟩ :=
    C9_unloaded_soft_fail (init 150) 3 0 0 0 { vid := 0, idx := 0 }
  obtain ⟨g1, -, g3, -⟩ := h1 rfl
  exact ⟨g1, g3, (h2 (by decide)).1⟩

/-- C10: the eviction branch of `_add_to_cache` pops from a cache that
is non-empty whenever the capacity is at least 1 (size ≥ capacity ≥ 1),
so a put never fails then; but with capacity ≤ 0 and an empty cache the
eviction branch runs `popitem` on an empty dict and the insert raises
instead of no-opping. -/
theorem C10_eviction_precondition (s : Handler) (k : Nat) (f : Frame) :
    (1 ≤ s.cache_size → add_to_cache k f s ≠ none) ∧
    (s.cache_enabled = true → s.cache_size ≤ 0 → s.frame_cache = [] →
      add_to_cache k f s = none) := by
  constructor
  · intro hcap hcon
    have h := add_to_cache_isSome (k := k) (f := f) hcap
    rw [hcon] at h
    simp at h
  · intro he hcap hcache
    exact add_to_cache_raises he hcache hcap

theorem C10_witness :
    add_to_cache 1 { vid := 0, idx := 1 } (init 150) ≠ none ∧
    add_to_cache 1 { vid := 0, idx := 1 } (init 0) = none :=
  ⟨(C10_eviction_precondition (init 150) 1 { vid := 0, idx := 1 }).1 (by decide),
    (C10_eviction_precondition (init 0) 1 { vid := 0, idx := 1 }).2
      rfl (by decide) rfl⟩

end VideoHandler

end DolphinBit
